import Mathlib

/-!
Verification of the tobi tag-discovery pipeline.

This file gives a shallow embedding, in Lean 4, of the core functions of the
tobi repository (an Obsidian-vault tag scanner written in Go) and proves or
refutes the frozen specification claims about them.

Embedding conventions:
  * Go byte streams consumed line-by-line through bufio.Scanner are modelled
    as a value of type List String (one element per scanned line, terminators
    stripped); the function linesOf recovers that split from a whole string.
  * Go strings are Lean String values; string helpers (HasPrefix, TrimSpace,
    TrimPrefix) are re-implemented over the character list so that proofs can
    reason about them directly.  Paths handled by the program are ASCII, so a
    character is identified with its byte where byte-level hashing matters.
  * Fallible Go functions returning (T, error) are modelled with Except/Option.
  * Concurrency in collectTags is a fan-out/fan-in whose tally is an
    order-insensitive multiset reduction; the embedding fixes the sequential
    order of the per-file results, which is without loss of generality for the
    tally and total (see collectTags below).
  * External libraries (goccy/go-yaml, gobwas/glob, go-git gitignore) are
    abstracted at their call boundary: the YAML decoder is a parameter, the
    glob engine is modelled for the pattern subset actually at stake
    (literals and the star wildcard, no separators).
-/

/-! ## String helpers (Go strings package) -/

/-- Go strings.HasPrefix: pre is a prefix of s. -/
def startsWithStr (s pre : String) : Bool :=
  pre.data.isPrefixOf s.data

/-- Character class of Go regexp \s, i.e. [\t\n\f\r ]. -/
def isSpaceGo (c : Char) : Bool :=
  c = ' ' || c = '\t' || c = '\n' || c = Char.ofNat 12 || c = '\r'

/-- Strip trailing whitespace from a character list. -/
def rstripSpaces (l : List Char) : List Char :=
  (l.reverse.dropWhile isSpaceGo).reverse

/-- Go strings.TrimSpace on the character list: strip leading and trailing
whitespace. -/
def trimSpaceL (l : List Char) : List Char :=
  rstripSpaces (l.dropWhile isSpaceGo)

/-- Go strings.TrimSpace. -/
def trimSpace (s : String) : String :=
  String.mk (trimSpaceL s.data)

/-- Go strings.TrimPrefix: remove one leading occurrence of pre, if present. -/
def trimPrefixStr (s pre : String) : String :=
  if startsWithStr s pre then String.mk (s.data.drop pre.data.length) else s

/-- Finish one bufio.ScanLines token: the accumulator holds the token's
characters in reverse; one trailing carriage return is dropped (dropCR). -/
def dropCRrev : List Char → List Char
  | '\r' :: rest => rest.reverse
  | l => l.reverse

/-- The token stream produced by bufio.Scanner with bufio.ScanLines: tokens
are split at each newline (always emitted, even when empty), a final token
without a newline is emitted only when non-empty, and one carriage return is
stripped from the end of every token.  The empty stream yields no lines. -/
def splitLinesAux : List Char → List Char → List (List Char)
  | cur, [] => if cur.isEmpty then [] else [dropCRrev cur]
  | cur, c :: cs =>
    if c = '\n' then dropCRrev cur :: splitLinesAux [] cs
    else splitLinesAux (c :: cur) cs

/-- Split a byte stream into the lines seen by bufio.Scanner (ScanLines). -/
def linesOf (s : String) : List String :=
  (splitLinesAux [] s.data).map String.mk

/-! ## Frontmatter extraction (src/cmd/root.go, extractFrontMatter) -/

/-- The three error values of src/cmd/root.go lines 291-295. -/
inductive FMErr where
  | invalidFrontMatter
  | emptyFrontMatter
  | noFrontMatter
deriving DecidableEq, Repr

/-- The scan loop of extractFrontMatter (src/cmd/root.go lines 320-327):
accumulate each line followed by a newline into the builder until a line
equal to the delimiter is found; the Bool records whether the closing
delimiter was seen. -/
def fmLoop : List String → String × Bool
  | [] => ("", false)
  | l :: ls =>
    if l = "---" then ("", true)
    else ((l ++ "\n") ++ (fmLoop ls).1, (fmLoop ls).2)

/-- extractFrontMatter (src/cmd/root.go lines 301-343) on the scanned lines.
The first line, when present, must start with and be exactly "---"; then
lines accumulate until the closing "---"; the trimmed block must be
non-empty.  When the stream has no first line at all, the first-line checks
are skipped (scanner.Scan() returns false) and the loop runs on nothing. -/
def extractFrontMatter (lines : List String) : Except FMErr String :=
  let afterFirst : List String → Except FMErr String := fun rest =>
    let p := fmLoop rest
    if p.2 = false then Except.error FMErr.invalidFrontMatter
    else
      let yml := trimSpace p.1
      if yml = "" then Except.error FMErr.emptyFrontMatter
      else Except.ok yml
  match lines with
  | [] => afterFirst []
  | t :: rest =>
    if startsWithStr t "---" = false then Except.error FMErr.noFrontMatter
    else if t ≠ "---" then Except.error FMErr.invalidFrontMatter
    else afterFirst rest

/-- The frontmatter block named by the specification: the lines strictly
between the opening delimiter and the first closing delimiter, each followed
by its newline. -/
def joinNl : List String → String
  | [] => ""
  | l :: ls => (l ++ "\n") ++ joinNl ls

/-- Modelled from the claim wording (spec section 4.3): the classification of
frontmatter for a stream whose first line is t and remaining lines are rest,
with the cases read in order: no "---" prefix on the first line is
NoFrontMatter; a first line starting with but not equal to "---" is
InvalidFrontMatter; end of input without a line exactly "---" is
InvalidFrontMatter; a block that trims to empty is EmptyFrontMatter;
otherwise the trimmed block is returned. -/
def extractFrontMatterSpec (t : String) (rest : List String) : Except FMErr String :=
  if startsWithStr t "---" = false then Except.error FMErr.noFrontMatter
  else if t ≠ "---" then Except.error FMErr.invalidFrontMatter
  else if rest.contains "---" = false then Except.error FMErr.invalidFrontMatter
  else
    let block := joinNl (rest.takeWhile (fun l => l ≠ "---"))
    if trimSpace block = "" then Except.error FMErr.emptyFrontMatter
    else Except.ok (trimSpace block)

theorem fmLoop_eq (ls : List String) :
    fmLoop ls = (joinNl (ls.takeWhile (fun l => l ≠ "---")), ls.contains "---") := by
  induction ls with
  | nil => simp [fmLoop, joinNl]
  | cons l ls ih =>
    by_cases h : l = "---"
    · subst h
      simp [fmLoop, List.takeWhile, joinNl, List.contains_cons]
    · have h2 : ("---" : String) ≠ l := fun hh => h hh.symm
      simp [fmLoop, h, h2, List.takeWhile, joinNl, ih, List.contains_cons]

/-- C1: for every input stream with a first line, extractFrontMatter
classifies the frontmatter exactly as the specification states: NoFrontMatter
when the first line does not start with "---", InvalidFrontMatter when it
starts with but is not exactly "---", InvalidFrontMatter when no closing
"---" line exists, EmptyFrontMatter when the accumulated block trims to
empty, and otherwise the trimmed block between the delimiters. -/
theorem extractFrontMatter_eq_spec (t : String) (rest : List String) :
    extractFrontMatter (t :: rest) = extractFrontMatterSpec t rest := by
  unfold extractFrontMatter extractFrontMatterSpec
  by_cases h1 : startsWithStr t "---" = false
  · simp [h1]
  · by_cases h2 : t = "---"
    · simp [h1, h2, fmLoop_eq]
    · simp [h1, h2]

/-- C10: the empty input stream (zero bytes) produces no scanned line at all,
so extractFrontMatter skips the first-line check and reports the missing
closing delimiter: the result is InvalidFrontMatter, not NoFrontMatter. -/
theorem extractFrontMatter_empty_input :
    extractFrontMatter (linesOf "") = Except.error FMErr.invalidFrontMatter ∧
      extractFrontMatter (linesOf "") ≠ Except.error FMErr.noFrontMatter := by
  refine ⟨rfl, ?_⟩
  intro h
  rw [show extractFrontMatter (linesOf "") = Except.error FMErr.invalidFrontMatter from rfl] at h
  exact FMErr.noConfusion (Except.error.inj h)

/-! ## Tag extraction (src/pkg/tagextract/tagextract.go and src/cmd/root.go) -/

/-- The tag character class (ASCII letters, digits, underscore, slash and
dash) shared by frontmatterTagRegex and inlineTagRegex (tagextract.go lines
46-50). -/
def isTagChar (c : Char) : Bool :=
  c.isAlpha || c.isDigit || c = '_' || c = '/' || c = '-'

/-- allNumericRegex: the string is one or more ASCII digits. -/
def isAllNumeric (s : String) : Bool :=
  !s.data.isEmpty && s.data.all Char.isDigit

/-- frontmatterTagRegex matching with its capture group: the whole string is
an optional leading hash followed by one or more tag-class characters; the
group is the part after the optional hash.  (A hash is not a tag-class
character, so the optional hash matches exactly when the string starts with
one.) -/
def frontmatterTagMatch (s : String) : Option String :=
  let body :=
    match s.data with
    | '#' :: rest => rest
    | l => l
  if !body.isEmpty && body.all isTagChar then some (String.mk body) else none

/-- fromFrontmatter (tagextract.go lines 52-77) applied to the decoded tags
sequence.  The yaml.Unmarshal call is abstracted: the argument is the decoded
value of the tags field; the function keeps each entry's regex capture group
and drops entries that fail the regex or are all-numeric. -/
def fromFrontmatter (tags : List String) : List String :=
  tags.filterMap fun tag =>
    match frontmatterTagMatch tag with
    | none => none
    | some t => if isAllNumeric t then none else some t

/-- extractTagsFromYAML (src/cmd/root.go lines 349-363).  The yaml.Unmarshal
call is abstracted: none models a YAML parse error, some tags the decoded
tags field.  On success the function only strips one leading hash from each
entry - it performs no other validation. -/
def extractTagsFromYAML (decoded : Option (List String)) : Option (List String) :=
  match decoded with
  | none => none
  | some tags => some (tags.map fun t => trimPrefixStr t "#")

/-- Whether the alternation at the start of inlineTagRegex can match just
before the current position: at the start of the text, or after a whitespace
character. -/
def okBefore : Option Char → Bool
  | none => true
  | some c => isSpaceGo c

/-- The scanning loop of FindAllStringSubmatch with inlineTagRegex
(tagextract.go line 48): fuelled so that it computes by kernel reduction.
At a hash in start position, the capture group is the maximal run of
tag-class characters after it; the scan resumes after that run (the regex
engine consumes the match), with the run's last character as predecessor. -/
def inlineScanFuel : Nat → Bool → List Char → List (List Char)
  | 0, _, _ => []
  | _ + 1, _, [] => []
  | f + 1, canStart, c :: cs =>
    if c = '#' && canStart then
      let run := cs.takeWhile isTagChar
      if run.isEmpty then inlineScanFuel f false cs
      else run :: inlineScanFuel f false (cs.drop run.length)
    else inlineScanFuel f (isSpaceGo c) cs

/-- All capture groups of inlineTagRegex over the text, in match order. -/
def inlineMatches (s : List Char) : List (List Char) :=
  inlineScanFuel (s.length + 1) true s

/-- fromBody (tagextract.go lines 79-96): every inline match's capture group,
in order of first occurrence with duplicates preserved, all-numeric groups
dropped. -/
def fromBody (s : String) : List String :=
  ((inlineMatches s.data).map String.mk).filter fun t => !(isAllNumeric t)

/-- Modelled from the claim wording (spec section 4.3): walk the text one
character at a time, remembering the previous character; at each position, a
hash which is at the start of the string or preceded by whitespace and is
followed by one or more tag-class characters yields that maximal run as a
match.  Every position is examined, so matches are listed in order of first
occurrence and duplicates are preserved. -/
def inlineSpecAux : Option Char → List Char → List (List Char)
  | _, [] => []
  | prev, c :: cs =>
    if c = '#' && okBefore prev then
      let run := cs.takeWhile isTagChar
      if run.isEmpty then inlineSpecAux (some c) cs
      else run :: inlineSpecAux (some c) cs
    else inlineSpecAux (some c) cs

/-- The declarative inline-match list for a whole text. -/
def inlineSpec (s : String) : List String :=
  (inlineSpecAux none s.data).map String.mk

theorem isSpaceGo_of_isTagChar (c : Char) : isTagChar c = true → isSpaceGo c = false := by
  intro h
  cases hv : isSpaceGo c
  · rfl
  · exfalso
    have hs2 : c = ' ' ∨ c = '\t' ∨ c = '\n' ∨ c = Char.ofNat 12 ∨ c = '\r' := by
      simpa [isSpaceGo, or_assoc] using hv
    rcases hs2 with h2 | h2 | h2 | h2 | h2 <;> rw [h2] at h <;> exact absurd h (by decide)

theorem drop_length_takeWhile (p : α → Bool) (l : List α) :
    l.drop (l.takeWhile p).length = l.dropWhile p := by
  induction l with
  | nil => rfl
  | cons a l ih =>
    by_cases h : p a
    · simp [List.takeWhile_cons, List.dropWhile_cons, h, ih]
    · simp [List.takeWhile_cons, List.dropWhile_cons, h]

theorem all_takeWhile (p : α → Bool) (l : List α) :
    (l.takeWhile p).all p = true := by
  induction l with
  | nil => rfl
  | cons a l ih =>
    by_cases h : p a
    · simp [List.takeWhile_cons, h, ih]
    · simp [List.takeWhile_cons, h]

theorem length_dropWhile_le_self (p : α → Bool) (l : List α) :
    (l.dropWhile p).length ≤ l.length := by
  induction l with
  | nil => simp [List.dropWhile]
  | cons a l ih =>
    by_cases h : p a
    · rw [List.dropWhile_cons, if_pos h]
      exact Nat.le_trans ih (Nat.le_succ _)
    · rw [List.dropWhile_cons, if_neg h]

theorem inlineSpecAux_skip_run (run : List Char) :
    ∀ (prev : Option Char) (cs : List Char),
      run.all isTagChar = true → run ≠ [] →
      ∃ c, isTagChar c = true ∧
        inlineSpecAux prev (run ++ cs) = inlineSpecAux (some c) cs := by
  induction run with
  | nil => intro _ _ _ hne; cases hne rfl
  | cons r rs ih =>
    intro prev cs hall _
    rw [List.all_cons, Bool.and_eq_true] at hall
    obtain ⟨hr, hrs⟩ := hall
    have rne : r ≠ '#' := by
      intro e; rw [e] at hr; exact absurd hr (by decide)
    have hstep : inlineSpecAux prev ((r :: rs) ++ cs) = inlineSpecAux (some r) (rs ++ cs) := by
      rw [List.cons_append]
      simp [inlineSpecAux, rne]
    cases rs with
    | nil => exact ⟨r, hr, by simpa using hstep⟩
    | cons r2 rs2 =>
      obtain ⟨c, hc, he⟩ := ih (some r) cs hrs (by simp)
      exact ⟨c, hc, hstep.trans he⟩

theorem inlineScanFuel_eq_spec :
    ∀ (n : Nat) (s : List Char) (prev : Option Char), s.length < n →
      inlineScanFuel n (okBefore prev) s = inlineSpecAux prev s := by
  intro n
  induction n with
  | zero => intro s _ h; omega
  | succ n ih =>
    intro s prev hlen
    cases s with
    | nil => cases prev <;> rfl
    | cons c cs =>
      have hcs : cs.length < n := by simp at hlen; omega
      by_cases hc : (c = '#' && okBefore prev) = true
      · have hc1 : c = '#' := by
          rw [Bool.and_eq_true] at hc
          exact of_decide_eq_true hc.1
        rw [inlineScanFuel, inlineSpecAux, if_pos hc, if_pos hc]
        by_cases hrun : (cs.takeWhile isTagChar).isEmpty = true
        · rw [if_pos hrun, if_pos hrun]
          have hb : okBefore (some c) = false := by
            rw [hc1]; decide
          rw [← hb]
          exact ih cs (some c) hcs
        · rw [if_neg hrun, if_neg hrun]
          congr 1
          obtain ⟨d, hd, he⟩ :=
            inlineSpecAux_skip_run (cs.takeWhile isTagChar) (some c)
              (cs.dropWhile isTagChar) (all_takeWhile _ _)
              (by
                intro hnil
                rw [hnil] at hrun
                exact hrun rfl)
          have hsplit : inlineSpecAux (some c) cs =
              inlineSpecAux (some d) (cs.dropWhile isTagChar) := by
            conv_lhs => rw [← List.takeWhile_append_dropWhile isTagChar cs]
            exact he
          have hb : okBefore (some d) = false := isSpaceGo_of_isTagChar d hd
          rw [drop_length_takeWhile, hsplit, ← hb]
          refine ih _ (some d) ?_
          have h1 : (cs.dropWhile isTagChar).length ≤ cs.length :=
            length_dropWhile_le_self _ _
          omega
      · rw [inlineScanFuel, inlineSpecAux, if_neg hc, if_neg hc]
        have hb : okBefore (some c) = isSpaceGo c := rfl
        rw [← hb]
        exact ih cs (some c) hcs

/-- C7: inline tag scanning over any body text equals the declarative
specification that examines every position and matches a hash followed by
one or more tag-class characters exactly when the hash is at the start of
the string or preceded by whitespace, in order of first occurrence with
duplicates preserved (the code additionally drops all-numeric groups, which
the declarative list keeps); in particular "a#tag" yields no tags and
" #tag" yields exactly "tag". -/
theorem fromBody_eq_spec (s : String) :
    fromBody s = (inlineSpec s).filter (fun t => !(isAllNumeric t)) ∧
      fromBody "a#tag" = [] ∧ fromBody " #tag" = ["tag"] ∧
      fromBody "x #a b #a" = ["a", "a"] := by
  refine ⟨?_, by decide, by decide, by decide⟩
  unfold fromBody inlineSpec inlineMatches
  have h0 : okBefore none = true := rfl
  rw [← h0, inlineScanFuel_eq_spec (s.data.length + 1) s.data none (by omega)]

/-- C2 counterexample: the root command's frontmatter tag extraction
(extractTagsFromYAML, the one wired into processFile) keeps a tag consisting
only of ASCII digits: on a decoded tags list containing "123" the extracted
list still contains "123". -/
theorem extractTagsFromYAML_keeps_numeric :
    isAllNumeric "123" = true ∧
      extractTagsFromYAML (some ["123"]) = some ["123"] :=
  ⟨by decide, rfl⟩

/-- C2 as amended: the tagextract package's frontmatter extraction
(fromFrontmatter) and inline body extraction (fromBody) both drop tags
consisting only of ASCII digits; the root command's extractTagsFromYAML
performs no such filtering. -/
theorem tagextract_drops_numeric (tags : List String) (body : String)
    (s : String) (h : isAllNumeric s = true) :
    s ∉ fromFrontmatter tags ∧ s ∉ fromBody body := by
  constructor
  · intro hm
    rcases List.mem_filterMap.mp hm with ⟨a, _, hf⟩
    rcases hma : frontmatterTagMatch a with _ | t
    · rw [hma] at hf; cases hf
    · rw [hma] at hf
      by_cases hn : isAllNumeric t = true
      · simp [hn] at hf
      · simp [hn] at hf
        subst hf
        exact hn h
  · intro hm
    have hp := (List.mem_filter.mp hm).2
    simp [h] at hp

theorem tagextract_drops_numeric_witness :
    isAllNumeric "123" = true ∧
      ("123" ∉ fromFrontmatter ["#123", "abc", "123"] ∧
        "123" ∉ fromBody " #123 #ok") :=
  ⟨by decide, tagextract_drops_numeric ["#123", "abc", "123"] " #123 #ok" "123" (by decide)⟩

/-! ## Aggregation (src/cmd/root.go, collectTags / processFile / RunE) -/

/-- tagCounts (src/cmd/root.go lines 140-144): frequency map, vault hash and
total number of retained tag occurrences.  The Go map is modelled as an
association list with unique keys. -/
structure tagCounts where
  Tags : List (String × Nat)
  Hash : Nat
  Total : Nat
deriving DecidableEq, Repr

/-- One step of the Go map update m[t]++ on the association-list model. -/
def bump : List (String × Nat) → String → List (String × Nat)
  | [], t => [(t, 1)]
  | (k, v) :: rest, t =>
    if k = t then (k, v + 1) :: rest else (k, v) :: bump rest t

/-- The collection loop of collectTags (src/cmd/root.go lines 179-187): drain
the tag channel, skipping tags matched by the ignore predicate, incrementing
the map entry and the running total for the rest. -/
def tallyAux : List String → (String → Bool) → List (String × Nat) → Nat →
    List (String × Nat) × Nat
  | [], _, m, total => (m, total)
  | t :: ts, ign, m, total =>
    if ign t then tallyAux ts ign m total
    else tallyAux ts ign (bump m t) (total + 1)

/-- collectTags (src/cmd/root.go lines 151-193).  Each per-file goroutine's
outcome is abstracted as an Option (List String): none when processFile
returned an error (the goroutine logs and sends nothing), some tags
otherwise.  The channel interleaving is fixed to the sequential order of the
list; the tally and total are insensitive to the interleaving because they
are a commutative multiset reduction, so this is without loss of
generality. -/
def collectTags (results : List (Option (List String))) (nsHash : Nat)
    (ignoreFunc : String → Bool) : tagCounts :=
  let stream := (results.map (fun r => r.getD [])).flatten
  let p := tallyAux stream ignoreFunc [] 0
  ⟨p.1, nsHash, p.2⟩

/-- processFile (src/cmd/root.go lines 273-289).  The os.Open outcome is the
openOk flag, the file's scanned lines are given directly, and yaml.Unmarshal
inside extractTagsFromYAML is abstracted by the parseTags function (none
models a YAML parse error).  NoFrontMatter and EmptyFrontMatter yield
some [] (nil tags, nil error); any other failure yields none (an error). -/
def processFile (openOk : Bool) (lines : List String)
    (parseTags : String → Option (List String)) : Option (List String) :=
  if openOk = false then none
  else
    match extractFrontMatter lines with
    | Except.error FMErr.emptyFrontMatter => some []
    | Except.error FMErr.noFrontMatter => some []
    | Except.error FMErr.invalidFrontMatter => none
    | Except.ok yml => extractTagsFromYAML (parseTags yml)

/-- What one invocation of the root command's RunE does after listNotes:
which tagCounts it prints, whether it recomputed them, and whether it wrote
the cache file. -/
structure runOutcome where
  printed : tagCounts
  recomputed : Bool
  wroteCache : Bool
deriving DecidableEq, Repr

/-- The cache consultation and recompute flow of RunE (src/cmd/root.go lines
86-109).  cacheRead abstracts newTagCountsFromCache: none models any open or
decode error, some tc a successful decode.  When noCache is unset and the
decoded hash equals the just-computed NoteSet hash the cached value is
printed as-is; otherwise collectTags runs and its result is written over the
cache file and printed. -/
def rootRunE (noCache : Bool) (cacheRead : Option tagCounts)
    (results : List (Option (List String))) (nsHash : Nat)
    (ign : String → Bool) : runOutcome :=
  let fresh := collectTags results nsHash ign
  let recompute : runOutcome := ⟨fresh, true, true⟩
  if noCache then recompute
  else
    match cacheRead with
    | some tc => if tc.Hash = nsHash then ⟨tc, false, false⟩ else recompute
    | none => recompute

/-- Sum of all values of the frequency map. -/
def sumCounts (m : List (String × Nat)) : Nat :=
  (m.map (fun e => e.2)).sum

/-- Whether t occurs as a key of the frequency map. -/
def hasKey (m : List (String × Nat)) (t : String) : Bool :=
  m.any (fun e => e.1 == t)

theorem sumCounts_bump (m : List (String × Nat)) (t : String) :
    sumCounts (bump m t) = sumCounts m + 1 := by
  induction m with
  | nil => rfl
  | cons e rest ih =>
    obtain ⟨k, v⟩ := e
    by_cases h : k = t
    · simp [bump, h, sumCounts]
      omega
    · simp [bump, h, sumCounts] at *
      omega

theorem hasKey_cons (k : String) (v : Nat) (rest : List (String × Nat)) (t : String) :
    hasKey ((k, v) :: rest) t = ((k == t) || hasKey rest t) := rfl

theorem hasKey_bump (m : List (String × Nat)) (u t : String) :
    hasKey (bump m u) t = true ↔ (hasKey m t = true ∨ t = u) := by
  induction m with
  | nil =>
    show hasKey [(u, 1)] t = true ↔ (hasKey [] t = true ∨ t = u)
    rw [hasKey_cons]
    simp [hasKey, beq_iff_eq]
    exact eq_comm
  | cons e rest ih =>
    obtain ⟨k, v⟩ := e
    by_cases h : k = u
    · subst h
      rw [show bump ((k, v) :: rest) k = (k, v + 1) :: rest from by simp [bump]]
      rw [hasKey_cons, hasKey_cons]
      simp only [Bool.or_eq_true, beq_iff_eq]
      constructor
      · exact fun hh => Or.inl hh
      · rintro (hh | hh)
        · exact hh
        · exact Or.inl hh.symm
    · rw [show bump ((k, v) :: rest) u = (k, v) :: bump rest u from by simp [bump, h]]
      rw [hasKey_cons, hasKey_cons]
      simp only [Bool.or_eq_true, beq_iff_eq]
      rw [ih]
      tauto

theorem tallyAux_invariant (ts : List String) :
    ∀ (ign : String → Bool) (m : List (String × Nat)) (tot : Nat),
      (sumCounts (tallyAux ts ign m tot).1 + tot =
        sumCounts m + (tallyAux ts ign m tot).2) ∧
      (∀ t, ign t = true →
        (hasKey (tallyAux ts ign m tot).1 t = true ↔ hasKey m t = true)) := by
  induction ts with
  | nil => intro ign m tot; exact ⟨by simp [tallyAux], fun t _ => Iff.rfl⟩
  | cons u ts ih =>
    intro ign m tot
    by_cases hu : ign u = true
    · rw [show tallyAux (u :: ts) ign m tot = tallyAux ts ign m tot by
        simp [tallyAux, hu]]
      exact ih ign m tot
    · rw [show tallyAux (u :: ts) ign m tot = tallyAux ts ign (bump m u) (tot + 1) by
        simp [tallyAux, hu]]
      obtain ⟨hsum, hkeys⟩ := ih ign (bump m u) (tot + 1)
      constructor
      · rw [sumCounts_bump] at hsum
        omega
      · intro t ht
        rw [hkeys t ht, hasKey_bump]
        constructor
        · rintro (h | h)
          · exact h
          · subst h
            rw [ht] at hu
            exact absurd rfl hu
        · exact Or.inl

/-- C4: for every note-result set and exclude predicate, the tagCounts built
by collectTags has a Total equal to the sum of the values of its Tags map,
and no tag matched by the exclude predicate occurs as a key of the map (so
excluded occurrences contribute neither a key nor anything to Total). -/
theorem collectTags_invariant (results : List (Option (List String)))
    (nsHash : Nat) (ign : String → Bool) :
    (collectTags results nsHash ign).Total =
      sumCounts (collectTags results nsHash ign).Tags ∧
    ∀ t, ign t = true → hasKey (collectTags results nsHash ign).Tags t = false := by
  obtain ⟨hsum, hkeys⟩ :=
    tallyAux_invariant ((results.map (fun r => r.getD [])).flatten) ign [] 0
  constructor
  · have h0 : sumCounts ([] : List (String × Nat)) = 0 := rfl
    rw [h0] at hsum
    show (tallyAux ((results.map (fun r => r.getD [])).flatten) ign [] 0).2 =
      sumCounts (tallyAux ((results.map (fun r => r.getD [])).flatten) ign [] 0).1
    omega
  · intro t ht
    have h2 := hkeys t ht
    have h3 : hasKey ([] : List (String × Nat)) t = false := rfl
    cases hv : hasKey (collectTags results nsHash ign).Tags t
    · rfl
    · exfalso
      have h4 : hasKey
          (tallyAux ((results.map (fun r => r.getD [])).flatten) ign [] 0).1 t = true := hv
      have h5 := h2.mp h4
      rw [h3] at h5
      exact absurd h5 (by decide)

theorem collectTags_invariant_witness :
    (collectTags [some ["a", "b", "a", "x"]] 5 (fun t => t == "x")).Total =
      sumCounts (collectTags [some ["a", "b", "a", "x"]] 5 (fun t => t == "x")).Tags ∧
    hasKey (collectTags [some ["a", "b", "a", "x"]] 5 (fun t => t == "x")).Tags "x" = false :=
  ⟨(collectTags_invariant [some ["a", "b", "a", "x"]] 5 (fun t => t == "x")).1,
    (collectTags_invariant [some ["a", "b", "a", "x"]] 5 (fun t => t == "x")).2 "x" (by decide)⟩

/-- C3: the root command prints a cached tagCounts without recomputation
exactly when caching is enabled, the cache file decodes successfully, and its
stored hash equals the hash of the just-computed note set; any read or decode
failure or hash mismatch forces a full recompute (whose result is written
over the cache); with the no-cache flag set the cache read is skipped
entirely (the outcome does not depend on it) and the freshly computed result
is still written over the cache file. -/
theorem rootRunE_cache_spec (noCache : Bool) (cacheRead : Option tagCounts)
    (results : List (Option (List String))) (nsHash : Nat) (ign : String → Bool) :
    ((rootRunE noCache cacheRead results nsHash ign).recomputed = false ↔
      noCache = false ∧ ∃ tc, cacheRead = some tc ∧ tc.Hash = nsHash) ∧
    ((rootRunE noCache cacheRead results nsHash ign).recomputed = false →
      ∃ tc, cacheRead = some tc ∧
        (rootRunE noCache cacheRead results nsHash ign).printed = tc) ∧
    ((rootRunE noCache cacheRead results nsHash ign).recomputed = true →
      (rootRunE noCache cacheRead results nsHash ign).printed =
        collectTags results nsHash ign ∧
      (rootRunE noCache cacheRead results nsHash ign).wroteCache = true) ∧
    (noCache = true →
      (∀ other, rootRunE true other results nsHash ign =
        rootRunE true cacheRead results nsHash ign) ∧
      (rootRunE true cacheRead results nsHash ign).wroteCache = true) := by
  cases noCache with
  | true =>
    refine ⟨by simp [rootRunE], by simp [rootRunE], fun _ => ⟨rfl, rfl⟩,
      fun _ => ⟨fun other => rfl, rfl⟩⟩
  | false =>
    cases cacheRead with
    | none =>
      refine ⟨by simp [rootRunE], by simp [rootRunE], fun _ => ⟨rfl, rfl⟩,
        fun h => by cases h⟩
    | some tc =>
      by_cases h : tc.Hash = nsHash
      · refine ⟨?_, ?_, ?_, fun hcon => by cases hcon⟩
        · simp [rootRunE, h]
        · intro _
          exact ⟨tc, rfl, by simp [rootRunE, h]⟩
        · intro hrec
          rw [show rootRunE false (some tc) results nsHash ign =
            ⟨tc, false, false⟩ from by simp [rootRunE, h]] at hrec
          cases hrec
      · refine ⟨?_, ?_, ?_, fun hcon => by cases hcon⟩
        · simp [rootRunE, h]
        · intro hrec
          rw [show rootRunE false (some tc) results nsHash ign =
            ⟨collectTags results nsHash ign, true, true⟩ from by simp [rootRunE, h]] at hrec
          cases hrec
        · intro _
          constructor
          · show (rootRunE false (some tc) results nsHash ign).printed = _
            simp [rootRunE, h]
          · simp [rootRunE, h]

theorem rootRunE_cache_spec_witness :
    (rootRunE false (some ⟨[], 7, 0⟩) [] 7 (fun _ => false)).recomputed = false :=
  (rootRunE_cache_spec false (some ⟨[], 7, 0⟩) [] 7 (fun _ => false)).1.mpr
    ⟨rfl, ⟨[], 7, 0⟩, rfl, rfl⟩

/-- C6: a file whose processing fails contributes zero tags and never aborts
the batch: aggregating with a failed file equals aggregating the remaining
files, and the same holds for a file that contributed an empty tag list; a
file with no frontmatter or empty frontmatter is not an error (processFile
returns nil tags and nil error), while open failure, invalid frontmatter and
a YAML parse failure are per-file errors (processFile returns an error and
hence the file contributes none). -/
theorem collectTags_error_isolation (xs ys : List (Option (List String)))
    (nsHash : Nat) (ign : String → Bool) (lines : List String)
    (parse : String → Option (List String)) :
    collectTags (xs ++ none :: ys) nsHash ign = collectTags (xs ++ ys) nsHash ign ∧
    collectTags (xs ++ some [] :: ys) nsHash ign = collectTags (xs ++ ys) nsHash ign ∧
    (extractFrontMatter lines = Except.error FMErr.noFrontMatter →
      processFile true lines parse = some []) ∧
    (extractFrontMatter lines = Except.error FMErr.emptyFrontMatter →
      processFile true lines parse = some []) ∧
    processFile false lines parse = none ∧
    (extractFrontMatter lines = Except.error FMErr.invalidFrontMatter →
      processFile true lines parse = none) ∧
    (∀ y, extractFrontMatter lines = Except.ok y → parse y = none →
      processFile true lines parse = none) := by
  refine ⟨?_, ?_, ?_, ?_, rfl, ?_, ?_⟩
  · simp [collectTags]
  · simp [collectTags]
  · intro h; simp [processFile, h]
  · intro h; simp [processFile, h]
  · intro h; simp [processFile, h]
  · intro y hy hp; simp [processFile, hy, extractTagsFromYAML, hp]

theorem collectTags_error_isolation_witness :
    collectTags [some ["a"], none] 3 (fun _ => false) =
      collectTags [some ["a"]] 3 (fun _ => false) ∧
    processFile true ["x"] (fun _ => none) = some [] := by
  have h := collectTags_error_isolation [some ["a"]] [] 3 (fun _ => false) ["x"] (fun _ => none)
  exact ⟨h.1, h.2.2.1 rfl⟩

/-! ## Ignore files and tag-exclude globs
(src/cmd/root.go, pkg/tagignore, pkg/gitignore) -/

/-- The gobwas/glob matcher used by tagignore (glob.Compile with no
separators), modelled for the pattern subset at stake: literal characters
and the star wildcard, where star matches any sequence of characters.
Fuelled (each step shortens pattern plus input) so it computes by kernel
reduction. -/
def globMatchFuel : Nat → List Char → List Char → Bool
  | 0, _, _ => false
  | _ + 1, [], [] => true
  | _ + 1, [], _ :: _ => false
  | f + 1, c :: ps, s =>
    if c = '*' then
      globMatchFuel f ps s ||
        (match s with
          | [] => false
          | _ :: s2 => globMatchFuel f (c :: ps) s2)
    else
      match s with
      | [] => false
      | d :: s2 => c = d && globMatchFuel f ps s2

/-- Glob match of a whole pattern against a whole tag name. -/
def globMatch (p s : String) : Bool :=
  globMatchFuel (p.data.length + s.data.length + 1) p.data s.data

/-- TagGlobs.Match (pkg/tagignore, tagextract.go lines 115-122): true as soon
as one compiled pattern matches the tag. -/
def tagGlobsMatch (pats : List String) (tag : String) : Bool :=
  pats.any (fun p => globMatch p tag)

/-- filepath.Join for a clean absolute directory and a bare file name. -/
def joinPath (dir file : String) : String := dir ++ "/" ++ file

/-- vaultPath.ignorePath (src/cmd/root.go lines 383-385). -/
def ignorePath (root : String) : String := joinPath root ".tobiignore"

/-- The file path the root command hands to tagignore.NewTagGlobs for the
tag-exclude globs (src/cmd/root.go line 76): root.ignorePath(). -/
def tagExcludeSourcePath (root : String) : String := ignorePath root

/-- C5: the root command loads its tag-exclude glob patterns from
root/.tobiignore, not from root/.tobi.exclude as the README and the tagx
package tests document; the glob behaviour itself is as claimed (a pattern
daily/star matches daily/journal and not daily), but patterns placed in
.tobi.exclude are never read by the wired pipeline. -/
theorem tagExclude_wiring_bug :
    tagExcludeSourcePath "/vault" = "/vault/.tobiignore" ∧
    tagExcludeSourcePath "/vault" ≠ "/vault/.tobi.exclude" ∧
    tagGlobsMatch ["daily/*"] "daily/journal" = true ∧
    tagGlobsMatch ["daily/*"] "daily" = false := by
  refine ⟨rfl, by decide, by decide, by decide⟩

/-- The ignore-rules file names recognised during the discovery walk
(gitignore.ReadPatterns, src/unnamed/part_001 line 75): .gitignore and
.tobiignore. -/
def isIgnoreRulesFilename (n : String) : Bool :=
  n == ".gitignore" || n == ".tobiignore"

/-- The lines of an ignore file that readIgnoreFile (src/unnamed/part_001
lines 114-127) turns into path-ignore patterns: those that do not start with
the comment prefix and are not blank after trimming. -/
def readIgnoreFileLines (content : List String) : List String :=
  content.filter fun l => !(startsWithStr l "#") && !(trimSpaceL l.data).isEmpty

/-- readIgnorePatterns (pkg/tagignore, tagextract.go lines 143-174): trim
each line, skip blanks and comment lines, and collect the rest with set
semantics (deduplicated; modelled in insertion order). -/
def readIgnorePatternsAux : List String → List String → List String
  | acc, [] => acc
  | acc, line :: rest =>
    if (trimSpace line).data.isEmpty then readIgnorePatternsAux acc rest
    else if startsWithStr (trimSpace line) "#" then readIgnorePatternsAux acc rest
    else if acc.contains (trimSpace line) then readIgnorePatternsAux acc rest
    else readIgnorePatternsAux (acc ++ [trimSpace line]) rest

/-- The deduplicated tag-glob pattern lines of the tag-exclude file. -/
def readIgnorePatterns (content : List String) : List String :=
  readIgnorePatternsAux [] content

theorem rstrip_cons_nonspace (c : Char) (t : List Char) (h : isSpaceGo c = false) :
    rstripSpaces (c :: t) = c :: rstripSpaces t := by
  unfold rstripSpaces
  rw [List.reverse_cons, List.dropWhile_append]
  by_cases he : (t.reverse.dropWhile isSpaceGo).isEmpty = true
  · rw [if_pos he]
    have ht : (t.reverse.dropWhile isSpaceGo) = [] := List.isEmpty_iff.mp he
    rw [ht]
    simp [List.dropWhile, h]
  · rw [if_neg he, List.reverse_append]
    rfl

theorem startsWithHash_trim (l : String) :
    startsWithStr l "#" = true → startsWithStr (trimSpace l) "#" = true := by
  intro h
  have hp : ("#".data).isPrefixOf l.data = true := h
  have hd : ∃ t, l.data = '#' :: t := by
    cases hld : l.data with
    | nil => rw [hld] at hp; cases hp
    | cons c cs =>
      rw [hld] at hp
      have : c = '#' := by
        by_contra hne
        have hne2 : ('#' == c) = false := by
          cases hv : ('#' == c)
          · rfl
          · exact absurd (beq_iff_eq.mp hv).symm hne
        rw [show ("#".data) = ['#'] from rfl] at hp
        rw [List.isPrefixOf] at hp
        rw [hne2] at hp
        cases hp
      exact ⟨cs, by rw [this]⟩
  obtain ⟨t, ht⟩ := hd
  show ("#".data).isPrefixOf (trimSpaceL l.data) = true
  rw [ht]
  unfold trimSpaceL
  rw [show (('#' :: t).dropWhile isSpaceGo) = '#' :: t from by
    rw [List.dropWhile_cons]
    have hns : isSpaceGo '#' = false := by decide
    rw [hns]
    simp]
  rw [rstrip_cons_nonspace '#' t (by decide)]
  have hlit : ("#".data) = ['#'] := rfl
  rw [hlit]
  simp [List.isPrefixOf]

theorem contains_mem {l : List String} {x : String} (h : l.contains x = true) :
    x ∈ l := by
  induction l with
  | nil => cases h
  | cons a l ih =>
    rw [List.contains_cons, Bool.or_eq_true] at h
    rcases h with h | h
    · exact (beq_iff_eq.mp h) ▸ List.mem_cons_self a l
    · exact List.mem_cons_of_mem a (ih h)

theorem readIgnorePatternsAux_mono (content : List String) :
    ∀ (acc : List String) (x : String), x ∈ acc →
      x ∈ readIgnorePatternsAux acc content := by
  induction content with
  | nil => intro acc x h; exact h
  | cons line rest ih =>
    intro acc x h
    unfold readIgnorePatternsAux
    split_ifs with h1 h2 h3
    · exact ih acc x h
    · exact ih acc x h
    · exact ih acc x h
    · exact ih (acc ++ [trimSpace line]) x (List.mem_append_left _ h)

theorem readIgnorePatternsAux_mem (line : String) (content : List String)
    (hnb : (trimSpace line).data.isEmpty = false)
    (hnc : startsWithStr (trimSpace line) "#" = false) :
    ∀ acc : List String, line ∈ content →
      trimSpace line ∈ readIgnorePatternsAux acc content := by
  induction content with
  | nil => intro acc h; cases h
  | cons hd rest ih =>
    intro acc hmem
    unfold readIgnorePatternsAux
    rcases List.mem_cons.mp hmem with he | hm
    · subst he
      split_ifs with h1 h2 h3
      · rw [hnb] at h1; cases h1
      · rw [hnc] at h2; cases h2
      · exact readIgnorePatternsAux_mono rest acc _ (contains_mem h3)
      · exact readIgnorePatternsAux_mono rest _ _
          (List.mem_append_right _ (List.mem_singleton.mpr rfl))
    · split_ifs with h1 h2 h3
      · exact ih acc hm
      · exact ih acc hm
      · exact ih acc hm
      · exact ih (acc ++ [trimSpace hd]) hm

/-- C9: the single file .tobiignore at the vault root serves two purposes in
one run: the discovery walk treats every file named .tobiignore (including
the root one, alongside .gitignore files) as a source of path-ignore
patterns, keeping every non-comment, non-blank line, while the same root
file path (root.ignorePath()) is read by the tag-glob loader, which compiles
every line whose trimmed form is non-blank and not a comment as a tag-name
exclude glob. -/
theorem tobiignore_dual_use (root : String) (content : List String) (l : String) :
    ignorePath root = root ++ "/" ++ ".tobiignore" ∧
    isIgnoreRulesFilename ".tobiignore" = true ∧
    (l ∈ content → trimSpace l ≠ "" → startsWithStr (trimSpace l) "#" = false →
      l ∈ readIgnoreFileLines content ∧ trimSpace l ∈ readIgnorePatterns content) := by
  refine ⟨rfl, by decide, ?_⟩
  intro hmem hnb hnc
  have hnb2 : (trimSpace l).data.isEmpty = false := by
    cases hv : (trimSpace l).data.isEmpty
    · rfl
    · exfalso
      apply hnb
      have hq : trimSpaceL l.data = [] := List.isEmpty_iff.mp hv
      show trimSpace l = ""
      unfold trimSpace
      rw [hq]
  constructor
  · apply List.mem_filter.mpr
    refine ⟨hmem, ?_⟩
    have h1 : startsWithStr l "#" = false := by
      cases hv : startsWithStr l "#"
      · rfl
      · have h2 := startsWithHash_trim l hv
        rw [h2] at hnc
        cases hnc
    rw [h1]
    have : (trimSpaceL l.data).isEmpty = false := hnb2
    rw [this]
    rfl
  · exact readIgnorePatternsAux_mem l content hnb2 hnc [] hmem

theorem tobiignore_dual_use_witness :
    "tag*" ∈ readIgnoreFileLines ["daily/", "# note", "", "tag*"] ∧
      trimSpace "tag*" ∈ readIgnorePatterns ["daily/", "# note", "", "tag*"] :=
  (tobiignore_dual_use "/v" ["daily/", "# note", "", "tag*"] "tag*").2.2
    (by decide) (by decide) (by decide)

/-! ## NoteSet fingerprint hash (src/cmd/root.go, listNotes) -/

/-- The FNV-64a prime (hash/fnv). -/
def fnvPrime : Nat := 1099511628211

/-- The FNV-64a offset basis (hash/fnv). -/
def fnvOffsetBasis : Nat := 14695981039346656037

/-- One FNV-1a byte step on the 64-bit state: xor the byte in, multiply by
the prime, truncate to 64 bits. -/
def fnvStep (h b : Nat) : Nat := ((h ^^^ b) * fnvPrime) % (2 ^ 64)

/-- Feed a byte sequence through the FNV-64a state. -/
def fnvFold (h : Nat) (bs : List Nat) : Nat := bs.foldl fnvStep h

/-- The bytes of a path string.  Discovered paths are ASCII, so each
character's code point is its byte. -/
def strBytes (s : String) : List Nat := s.data.map Char.toNat

/-- The k little-endian bytes of a number (binary.Write with LittleEndian). -/
def leBytes : Nat → Nat → List Nat
  | 0, _ => []
  | k + 1, t => (t % 256) :: leBytes k (t / 256)

/-- A discovered note as the walk callback sees it: its absolute path and
its modification time, second and sub-second parts.  Unix timestamps of
vault files are non-negative, so seconds are modelled as Nat. -/
structure noteMeta where
  path : String
  mtimeSec : Nat
  mtimeNsec : Nat
deriving DecidableEq, Repr

/-- The bytes one note contributes to the hash (src/cmd/root.go lines
451-452): h.Write of the path bytes, then binary.Write of
info.ModTime().Unix() as an 8-byte little-endian integer - only whole
seconds; the nanosecond part of the modification time is never hashed. -/
def noteBytes (f : noteMeta) : List Nat := strBytes f.path ++ leBytes 8 f.mtimeSec

/-- The whole byte stream fed to the hash over a walk, in visit order. -/
def noteStream : List noteMeta → List Nat
  | [] => []
  | f :: fs => noteBytes f ++ noteStream fs

/-- The fingerprint hash of listNotes (src/cmd/root.go lines 407-467): fold
every discovered note's path and modification-time seconds through FNV-64a
in visit order. -/
def noteSetHash (files : List noteMeta) : Nat :=
  files.foldl (fun h f => fnvFold h (noteBytes f)) fnvOffsetBasis

/-- The part of a note's metadata that the hash actually depends on. -/
def noteKey (f : noteMeta) : String × Nat := (f.path, f.mtimeSec)

/-- C8 counterexample: changing a discovered note's modification time does
not always change the hash: a sub-second change (here 999999 nanoseconds)
alters the modification time but leaves ModTime().Unix(), and hence the
fingerprint, unchanged. -/
theorem noteSetHash_subsecond_collision :
    noteMeta.mk "/v/a.md" 100 0 ≠ noteMeta.mk "/v/a.md" 100 999999 ∧
      noteSetHash [noteMeta.mk "/v/a.md" 100 0] =
        noteSetHash [noteMeta.mk "/v/a.md" 100 999999] :=
  ⟨by decide, rfl⟩

theorem fnvFold_append (a b : List Nat) (h : Nat) :
    fnvFold h (a ++ b) = fnvFold (fnvFold h a) b :=
  List.foldl_append fnvStep h a b

theorem noteSetHash_eq_stream_aux (fs : List noteMeta) :
    ∀ h : Nat, fs.foldl (fun h f => fnvFold h (noteBytes f)) h =
      fnvFold h (noteStream fs) := by
  induction fs with
  | nil => intro h; rfl
  | cons f fs ih =>
    intro h
    show fs.foldl (fun h f => fnvFold h (noteBytes f)) (fnvFold h (noteBytes f)) =
      fnvFold h (noteBytes f ++ noteStream fs)
    rw [fnvFold_append]
    exact ih (fnvFold h (noteBytes f))

theorem noteStream_append (a b : List noteMeta) :
    noteStream (a ++ b) = noteStream a ++ noteStream b := by
  induction a with
  | nil => rfl
  | cons f fs ih => simp [noteStream, ih, List.append_assoc]

theorem leBytes_length (k t : Nat) : (leBytes k t).length = k := by
  induction k generalizing t with
  | zero => rfl
  | succ k ih => simp [leBytes, ih]

theorem leBytes_inj (k : Nat) :
    ∀ t u, t < 256 ^ k → u < 256 ^ k → leBytes k t = leBytes k u → t = u := by
  induction k with
  | zero =>
    intro t u ht hu _
    rw [pow_zero] at ht hu
    omega
  | succ k ih =>
    intro t u ht hu he
    simp only [leBytes] at he
    injection he with h1 h2
    rw [pow_succ] at ht hu
    have hdt : t / 256 < 256 ^ k := (Nat.div_lt_iff_lt_mul (by omega)).mpr ht
    have hdu : u / 256 < 256 ^ k := (Nat.div_lt_iff_lt_mul (by omega)).mpr hu
    have hdiv := ih (t / 256) (u / 256) hdt hdu h2
    omega

theorem noteStream_congr :
    ∀ fs gs : List noteMeta, fs.map noteKey = gs.map noteKey →
      noteStream fs = noteStream gs := by
  intro fs
  induction fs with
  | nil =>
    intro gs h
    cases gs with
    | nil => rfl
    | cons g gs => cases h
  | cons f fs ih =>
    intro gs h
    cases gs with
    | nil => cases h
    | cons g gs =>
      rw [List.map_cons, List.map_cons] at h
      injection h with h1 h2
      have hpath : f.path = g.path := congrArg Prod.fst h1
      have hsec : f.mtimeSec = g.mtimeSec := congrArg Prod.snd h1
      show noteBytes f ++ noteStream fs = noteBytes g ++ noteStream gs
      rw [ih gs h2]
      unfold noteBytes
      rw [hpath, hsec]

theorem append_cancel_left_list {a b c : List Nat} (h : a ++ b = a ++ c) : b = c := by
  have h2 := congrArg (List.drop a.length) h
  rwa [List.drop_left, List.drop_left] at h2

/-- C8 as amended: the fingerprint hash is a deterministic function of the
visited sequence of (path, whole-second modification time) pairs, so two
scans over an unchanged note set agree (regardless of sub-second times); the
hash consumes exactly the noteStream bytes, and changing one note's
whole-second modification time, or adding or removing a note, always changes
that byte stream (so such changes are detected up to 64-bit hash collisions,
which the specification itself allows for by calling the hash best-effort). -/
theorem noteSetHash_amended :
    (∀ fs gs : List noteMeta, fs.map noteKey = gs.map noteKey →
      noteSetHash fs = noteSetHash gs) ∧
    (∀ fs : List noteMeta, noteSetHash fs = fnvFold fnvOffsetBasis (noteStream fs)) ∧
    (∀ (pre post : List noteMeta) (f g : noteMeta), f.path = g.path →
      f.mtimeSec ≠ g.mtimeSec → f.mtimeSec < 2 ^ 64 → g.mtimeSec < 2 ^ 64 →
      noteStream (pre ++ f :: post) ≠ noteStream (pre ++ g :: post)) ∧
    (∀ (pre post : List noteMeta) (f : noteMeta), f.path ≠ "" →
      noteStream (pre ++ f :: post) ≠ noteStream (pre ++ post)) := by
  refine ⟨?_, fun fs => noteSetHash_eq_stream_aux fs fnvOffsetBasis, ?_, ?_⟩
  · intro fs gs h
    have e1 : noteSetHash fs = fnvFold fnvOffsetBasis (noteStream fs) :=
      noteSetHash_eq_stream_aux fs fnvOffsetBasis
    have e2 : noteSetHash gs = fnvFold fnvOffsetBasis (noteStream gs) :=
      noteSetHash_eq_stream_aux gs fnvOffsetBasis
    rw [e1, e2, noteStream_congr fs gs h]
  · intro pre post f g hpath hne hf hg he
    rw [noteStream_append, noteStream_append] at he
    have he2 := append_cancel_left_list he
    have he3 : (strBytes f.path ++ leBytes 8 f.mtimeSec) ++ noteStream post =
        (strBytes g.path ++ leBytes 8 g.mtimeSec) ++ noteStream post := he2
    rw [hpath, List.append_assoc, List.append_assoc] at he3
    have he4 := append_cancel_left_list he3
    have he5 := (List.append_inj he4 (by rw [leBytes_length, leBytes_length])).1
    have h64 : (2 : Nat) ^ 64 = 256 ^ 8 := by norm_num
    rw [h64] at hf hg
    exact hne (leBytes_inj 8 f.mtimeSec g.mtimeSec hf hg he5)
  · intro pre post f hne he
    have hlen := congrArg List.length he
    rw [noteStream_append, noteStream_append] at hlen
    simp only [List.length_append] at hlen
    have hstep : (noteStream (f :: post)).length =
        (noteBytes f).length + (noteStream post).length := by
      show (noteBytes f ++ noteStream post).length = _
      rw [List.length_append]
    rw [hstep] at hlen
    have hpos : (noteBytes f).length ≠ 0 := by
      intro h0
      apply hne
      unfold noteBytes at h0
      rw [List.length_append, leBytes_length] at h0
      omega
    omega

theorem noteSetHash_amended_witness :
    noteSetHash [noteMeta.mk "a.md" 5 1] = noteSetHash [noteMeta.mk "a.md" 5 2] ∧
    noteStream [noteMeta.mk "a.md" 5 0] ≠ noteStream [noteMeta.mk "a.md" 6 0] ∧
    noteStream [noteMeta.mk "a.md" 5 0] ≠ noteStream [] := by
  refine ⟨noteSetHash_amended.1 _ _ (by decide), ?_, ?_⟩
  · exact noteSetHash_amended.2.2.1 [] [] (noteMeta.mk "a.md" 5 0)
      (noteMeta.mk "a.md" 6 0) rfl (by decide) (by decide) (by decide)
  · exact noteSetHash_amended.2.2.2 [] [] (noteMeta.mk "a.md" 5 0) (by decide)
